import Mathlib

/-!
Verification of the crisis detection-and-labeling pipeline of the
Brent-oil Bayesian change-point repository.

Shallow embedding conventions:
* calendar dates are modelled as integers (day numbers); pandas Timedelta
  arithmetic on dates becomes integer arithmetic;
* monetary prices, volatilities and confidences are rationals;
* the numeric library calls `np.log` / pandas `.std()` that produce the
  statistical baseline volatility are modelled by an abstract function
  `stdlr : List ℚ → ℚ` (standard deviation of log-returns of a price
  sequence); every theorem about the labeler quantifies over it;
* Python `round(x, k)` (round to `k` decimals, ties to even) is modelled by
  `roundTo`;
* Python division of rationals is exact; the embedding uses `ℚ` division,
  whose `x / 0 = 0` convention only differs from the source on degenerate
  zero-volatility inputs.
-/

/-- A candidate detection, the dict built by
`GlobalChangePointDetector._extract_change_point`.  The free-text `notes`
provenance field of the source is carried as an opaque string. -/
structure Candidate where
  crisis_start_date : ℤ
  crisis_end_date : ℤ
  volatility_pre : ℚ
  volatility_crisis : ℚ
  volatility_post : ℚ
  detection_confidence : ℚ
  window_size_days : ℤ
  notes : String
deriving DecidableEq

/-- Python `max(cluster, key=detection_confidence)`: scan left to right,
replace the current best only on strictly greater confidence, so the first
member attaining the maximum is kept. -/
def pickBest (best : Candidate) : List Candidate → Candidate
  | [] => best
  | x :: xs =>
      pickBest (if best.detection_confidence < x.detection_confidence then x else best) xs

/-- The loop body of `_consolidate_detections`: `first` is the anchor
(first member) of the open cluster, `members` its later members in
encounter order, and the third argument the remaining sorted detections.
A detection joins the cluster iff its start date is within 60 days of the
anchor's; otherwise the cluster is closed, emitting its best member. -/
def consolidateLoop (first : Candidate) (members : List Candidate) :
    List Candidate → List Candidate
  | [] => [pickBest first members]
  | d :: ds =>
      if (d.crisis_start_date - first.crisis_start_date).natAbs ≤ 60 then
        consolidateLoop first (members ++ [d]) ds
      else
        pickBest first members :: consolidateLoop d [] ds

/-- The comparison used by `sorted(..., key=crisis_start_date)`. -/
def startLE (a b : Candidate) : Bool :=
  a.crisis_start_date ≤ b.crisis_start_date

/-- Python `sorted` by start date (a stable sort, like `List.mergeSort`). -/
def sortByStart (l : List Candidate) : List Candidate :=
  l.mergeSort startLE

/-- `GlobalChangePointDetector._consolidate_detections`: sort candidates by
start date, then greedily cluster and emit one best member per cluster. -/
def _consolidate_detections (l : List Candidate) : List Candidate :=
  match sortByStart l with
  | [] => []
  | x :: xs => consolidateLoop x [] xs

/-- Spec-side definition (from the spec's §4.3 wording, for the refinement
claim C1): the greedy clusters themselves, each as (anchor, later members);
a candidate joins iff its start date is within 60 days of the anchor's. -/
def specClusters (first : Candidate) (members : List Candidate) :
    List Candidate → List (Candidate × List Candidate)
  | [] => [(first, members)]
  | d :: ds =>
      if (d.crisis_start_date - first.crisis_start_date).natAbs ≤ 60 then
        specClusters first (members ++ [d]) ds
      else
        (first, members) :: specClusters d [] ds

/-- Spec-side: the greedy clustering of the sorted candidate list. -/
def greedyClusters (l : List Candidate) : List (Candidate × List Candidate) :=
  match sortByStart l with
  | [] => []
  | x :: xs => specClusters x [] xs

/-- Spec-side: the maximal detection confidence within a cluster. -/
def clusterMaxConf (cl : Candidate × List Candidate) : ℚ :=
  cl.2.foldl (fun q x => max q x.detection_confidence) cl.1.detection_confidence

/-- Spec-side: the canonical record of a cluster, per the spec's wording:
the member of maximal confidence, ties keeping the first-encountered
member. -/
def specCanonical (cl : Candidate × List Candidate) : Option Candidate :=
  (cl.1 :: cl.2).find? (fun c => c.detection_confidence == clusterMaxConf cl)

/-- Python's `round` to an integer: nearest integer, ties to even.
Non-ties equal the classical `⌊q + 1/2⌋`. -/
def roundHalfToEven (q : ℚ) : ℤ :=
  if q - ⌊q⌋ = 1/2 then (if ⌊q⌋ % 2 = 0 then ⌊q⌋ else ⌊q⌋ + 1) else ⌊q + 1/2⌋

/-- Python `round(q, k)`: round to `k` decimal places. -/
def roundTo (k : ℕ) (q : ℚ) : ℚ :=
  (roundHalfToEven (q * 10 ^ k) : ℚ) / 10 ^ k

/-- The deterministic inputs that `_extract_change_point` reads from one
analyzed window: the window's date index, the integer posterior medians of
`tau_1`/`tau_2`, the posterior mean volatilities `sigma_1..3`, the posterior
standard deviations of the two breakpoint indices, and the detector's
configured window size. -/
structure WindowResult where
  window_dates : List ℤ
  t1_idx : ℕ
  t2_idx : ℕ
  sigma_1 : ℚ
  sigma_2 : ℚ
  sigma_3 : ℚ
  tau_1_std : ℚ
  tau_2_std : ℚ
  window_size_days : ℤ
deriving DecidableEq

/-- `volatility_ratio = sigma_2 / ((sigma_1 + sigma_3) / 2)`. -/
def volRatioOf (w : WindowResult) : ℚ :=
  w.sigma_2 / ((w.sigma_1 + w.sigma_3) / 2)

/-- `GlobalChangePointDetector._extract_change_point`.  An out-of-range
breakpoint index raises `IndexError` in the source, caught by the
enclosing `except` which returns `None`; that is the `none` fallthrough.
A window with `volatility_ratio < 1.5` returns `None` before the dict is
built.  The free-text `notes` value is carried as the empty string. -/
def _extract_change_point (w : WindowResult) : Option Candidate :=
  match w.window_dates[w.t1_idx]?, w.window_dates[w.t2_idx]? with
  | some crisis_start, some crisis_end =>
      let max_std : ℚ := (w.window_dates.length : ℚ) / 4
      let confidence_1 := max 0 (1 - w.tau_1_std / max_std)
      let confidence_2 := max 0 (1 - w.tau_2_std / max_std)
      let avg_confidence := (confidence_1 + confidence_2) / 2
      if volRatioOf w < 3/2 then none
      else
        some ⟨crisis_start, crisis_end, roundTo 5 w.sigma_1, roundTo 5 w.sigma_2,
          roundTo 5 w.sigma_3, roundTo 4 avg_confidence, w.window_size_days, ""⟩
  | _, _ => none

/-- The accumulation step of `run_global_scan`: a window's extraction is
kept as a candidate only when it produced a dict at all and its
`detection_confidence` is at least `min_confidence`. -/
def scanCandidates (min_confidence : ℚ) (ws : List WindowResult) : List Candidate :=
  ws.filterMap fun w =>
    match _extract_change_point w with
    | some cp => if min_confidence ≤ cp.detection_confidence then some cp else none
    | none => none

/-- The while-loop of `get_sliding_windows`, emitting candidate window
start dates from `cur` while `cur + window_size ≤ end_date` and advancing
by `step_size`.  The fuel argument only bounds the recursion; with the
fuel supplied by `slidingStarts` it never truncates when `step > 0`
(the source loop does not terminate when `step ≤ 0`; callers use the
positive defaults 365/90). -/
def slidingStartsGo (endDate w step : ℤ) : ℕ → ℤ → List ℤ
  | 0, _ => []
  | fuel + 1, cur =>
      if cur + w ≤ endDate then cur :: slidingStartsGo endDate w step fuel (cur + step)
      else []

/-- All candidate window start dates generated by `get_sliding_windows`. -/
def slidingStarts (endDate w step cur : ℤ) : List ℤ :=
  slidingStartsGo endDate w step ((endDate - cur - w).toNat + 1) cur

/-- `prices_df.loc[s:e]`: the observation dates falling in the inclusive
range `[s, e]`. -/
def windowObs (dates : List ℤ) (s e : ℤ) : List ℤ :=
  dates.filter fun d => decide (s ≤ d) && decide (d ≤ e)

/-- `get_sliding_windows` of `db_data_loader`: walk from the series' first
date while the window end does not exceed the last date, keep only windows
with at least 100 observations, and yield
`(window_start, window_end, window_df)` (the frame abstracted to its date
index). -/
def get_sliding_windows (dates : List ℤ) (window_size step_size : ℤ) :
    List (ℤ × ℤ × List ℤ) :=
  match dates.min?, dates.max? with
  | some start_date, some end_date =>
      (slidingStarts end_date window_size step_size start_date).filterMap fun cur =>
        let window := windowObs dates cur (cur + window_size)
        if 100 ≤ window.length then some (cur, cur + window_size, window) else none
  | _, _ => []

/-- One row of the market-data frame read by the regime labeler. -/
structure MarketRow where
  date : ℤ
  price : ℚ
deriving DecidableEq

/-- One row of the regime frame built by `RegimeLabeler.assign_regimes`. -/
structure RegimeRow where
  date : ℤ
  price : ℚ
  regime : String
  volatility : ℚ
  confidence : ℚ
deriving DecidableEq

/-- The initial regime frame: one row per market date, default regime
`Normal`, volatility 0, confidence 0. -/
def initRegimes (mkt : List MarketRow) : List RegimeRow :=
  mkt.map fun r => ⟨r.date, r.price, "Normal", 0, 0⟩

/-- The effect on one row of applying one crisis record: the source's
three sequential mask assignments, whose date ranges
`[start, end]`, `[start-30, start)` and `(end, end+30]` are pairwise
disjoint, so they equal a single per-row case split. -/
def applyCrisisRow (cp : Candidate) (r : RegimeRow) : RegimeRow :=
  if cp.crisis_start_date ≤ r.date ∧ r.date ≤ cp.crisis_end_date then
    { r with regime := "Crisis", volatility := cp.volatility_crisis,
             confidence := cp.detection_confidence }
  else if cp.crisis_start_date - 30 ≤ r.date ∧ r.date < cp.crisis_start_date then
    { r with regime := "Normal", volatility := cp.volatility_pre,
             confidence := cp.detection_confidence }
  else if cp.crisis_end_date < r.date ∧ r.date ≤ cp.crisis_end_date + 30 then
    { r with regime := "Recovery", volatility := cp.volatility_post,
             confidence := cp.detection_confidence }
  else r

/-- The crisis-application loop of `assign_regimes`: crises sorted by
start date (`sort_values`, stable), applied in order to the initial frame,
later crises overwriting earlier ones. -/
def applyAll (mkt : List MarketRow) (cps : List Candidate) : List RegimeRow :=
  (sortByStart cps).foldl (fun rows cp => rows.map (applyCrisisRow cp)) (initRegimes mkt)

/-- The dates whose row is currently labeled `Normal`
(`regime_df.loc[normal_mask, 'date']`). -/
def normalDatesOf (mkt : List MarketRow) (cps : List Candidate) : List ℤ :=
  ((applyAll mkt cps).filter fun r => r.regime == "Normal").map fun r => r.date

/-- `market_data[market_data.index.isin(normal_dates)]`. -/
def baselineDataOf (mkt : List MarketRow) (cps : List Candidate) : List MarketRow :=
  mkt.filter fun m => (normalDatesOf mkt cps).contains m.date

/-- The two final `.loc` updates of `assign_regimes`: rows still labeled
`Normal` with default volatility 0 get the baseline volatility `bv`, rows
still labeled `Normal` with default confidence 0 get confidence 0.8. -/
def fallbackUpdate (bv : ℚ) (r : RegimeRow) : RegimeRow :=
  { r with
    volatility := if r.regime = "Normal" ∧ r.volatility = 0 then bv else r.volatility,
    confidence := if r.regime = "Normal" ∧ r.confidence = 0 then 4/5 else r.confidence }

/-- `RegimeLabeler.assign_regimes`, parameterized by the numeric-library
computation `stdlr` (`np.log(p / p.shift(1)).std()` applied to a price
sequence), which the embedding keeps abstract. -/
def assign_regimes (stdlr : List ℚ → ℚ) (mkt : List MarketRow)
    (cps : List Candidate) : List RegimeRow :=
  if cps.isEmpty then
    (initRegimes mkt).map fun r =>
      { r with volatility := stdlr (mkt.map fun m => m.price), confidence := 1 }
  else
    let rows := applyAll mkt cps
    if 0 < (rows.filter fun r => r.regime == "Normal").length ∧
        1 < (baselineDataOf mkt cps).length then
      rows.map (fallbackUpdate (stdlr ((baselineDataOf mkt cps).map fun m => m.price)))
    else rows

/-- Spec-side definition (claim C7's wording): the days labeled `Normal`
that still carry both untouched defaults (volatility 0 and confidence 0),
i.e. excluding pre-crisis-margin days that are `Normal` but already carry
a crisis's `volatility_pre`. -/
def specUntouchedNormalDates (mkt : List MarketRow) (cps : List Candidate) : List ℤ :=
  ((applyAll mkt cps).filter fun r =>
    r.regime == "Normal" && r.volatility == 0 && r.confidence == 0).map fun r => r.date

/-- A curated ground-truth event used only by validation. -/
structure GroundTruthEvent where
  event_date : ℤ
  description : String
deriving DecidableEq

/-- The metrics dict assembled by `BayesianPipeline.validate_detections`. -/
structure ValidationMetrics where
  total_known_events : ℕ
  detected_events : ℕ
  missed_events : ℕ
  false_positives : ℕ
  detection_rate : ℚ
  false_positive_rate : ℚ
  match_list : List (GroundTruthEvent × Candidate)
  missed : List GroundTruthEvent
  false_pos_list : List Candidate
deriving DecidableEq

/-- The three possible returns of `validate_detections`: the two early
status dicts, or the metrics dict. -/
inductive ValidationOutcome
  | no_detections
  | no_ground_truth
  | results (m : ValidationMetrics)
deriving DecidableEq

/-- The inner loop over detections for one event: the first crisis whose
`[start, end]` range contains the event date, or whose start date is
within 60 days of it, wins (the source checks the two conditions
sequentially for each crisis before moving to the next, which is the same
first-match). -/
def findMatch (detected : List Candidate) (event_date : ℤ) : Option Candidate :=
  detected.find? fun cp =>
    decide (cp.crisis_start_date ≤ event_date ∧ event_date ≤ cp.crisis_end_date)
      || decide ((event_date - cp.crisis_start_date).natAbs ≤ 60)

/-- A detection is a false positive when no ground-truth event lies within
60 days of its start date. -/
def isFalsePositive (events : List GroundTruthEvent) (cp : Candidate) : Bool :=
  events.all fun ev => decide (60 < (cp.crisis_start_date - ev.event_date).natAbs)

/-- The metrics computed by `validate_detections` once both inputs are
known to be non-empty. -/
def validationMetricsOf (detected : List Candidate)
    (events : List GroundTruthEvent) : ValidationMetrics :=
  let match_list := events.filterMap fun ev =>
    (findMatch detected ev.event_date).map fun cp => (ev, cp)
  let missed := events.filter fun ev => (findMatch detected ev.event_date).isNone
  let fps := detected.filter (isFalsePositive events)
  let total := events.length
  let detection_rate : ℚ :=
    if 0 < total then (match_list.length : ℚ) / total * 100 else 0
  let fp_rate : ℚ :=
    if 0 < detected.length then (fps.length : ℚ) / detected.length * 100 else 0
  ⟨total, match_list.length, missed.length, fps.length, detection_rate, fp_rate,
    match_list, missed, fps⟩

/-- `BayesianPipeline.validate_detections`: empty detections or empty
ground truth short-circuit to a status result before any
matching or rate computation happens. -/
def validate_detections (detected : List Candidate)
    (events : List GroundTruthEvent) : ValidationOutcome :=
  if detected.isEmpty then .no_detections
  else if events.isEmpty then .no_ground_truth
  else .results (validationMetricsOf detected events)

-- ### Concrete inputs used by witnesses and counterexamples

/-- A candidate starting at day 100. -/
def candA : Candidate := ⟨100, 160, 1/100, 5/100, 2/100, 9/10, 365, ""⟩

/-- A candidate starting at day 0, lower confidence than `candA`. -/
def candB : Candidate := ⟨0, 60, 1/100, 5/100, 2/100, 8/10, 365, ""⟩

/-- A window of 120 observations whose breakpoint posteriors both have
standard deviation 10, so each breakpoint confidence is `2/3` and the
average confidence is `2/3`; volatility ratio `2 / ((1+1)/2) = 2`. -/
def cexWindow : WindowResult :=
  ⟨(List.range 120).map fun n => (n : ℤ), 10, 100, 1, 2, 1, 10, 10, 365⟩

/-- A tiny accepted window: zero breakpoint spread, ratio 2. -/
def witWindow : WindowResult := ⟨[0, 1, 2, 3], 1, 2, 1, 2, 1, 0, 0, 365⟩

/-- A window whose volatility ratio is `1 < 1.5`. -/
def lowWindow : WindowResult := ⟨[0, 1, 2, 3], 1, 2, 1, 1, 1, 0, 0, 365⟩

/-- An observation series with 100 dense days `0..99`, a sparse middle,
100 dense days `400..499` and a final day 600: the generated windows of
size 200 at step 200 start at 0, 200 and 400, but the middle one holds a
single observation and is discarded. -/
def gapDates : List ℤ :=
  (List.range 100).map (fun n => (n : ℤ))
    ++ (List.range 100).map (fun n => 400 + (n : ℤ))
    ++ [600]

/-- The consolidated crisis of the spec's labeling example, with dates as
day numbers relative to 2008-09-01: start 0 = 2008-09-01,
end 181 = 2009-03-01, `vol_pre` 0.01, `vol_crisis` 0.05, `vol_post` 0.02,
confidence 0.9. -/
def exCp : Candidate := ⟨0, 181, 1/100, 5/100, 2/100, 9/10, 365, ""⟩

/-- The market series of the labeling example: day −100 (untouched
Normal), −17 = 2008-08-15, 0 = 2008-09-01, 181 = 2009-03-01,
200 = 2009-03-20, 242 = 2009-05-01. -/
def exMkt : List MarketRow :=
  [⟨-100, 10⟩, ⟨-17, 11⟩, ⟨0, 12⟩, ⟨181, 13⟩, ⟨200, 14⟩, ⟨242, 15⟩]

/-- A concrete instantiation of the abstract std-of-log-returns
computation, used to exhibit that the two candidate baseline input sets of
claim C7 give different values: it counts its input prices. -/
def lenQ : List ℚ → ℚ := fun l => (l.length : ℚ)

/-- A ground-truth event at day 50. -/
def evW : GroundTruthEvent := ⟨50, "example event"⟩

/-- A detection starting at day 40, covering the event at day 50. -/
def cpW : Candidate := ⟨40, 90, 1/100, 5/100, 2/100, 9/10, 365, ""⟩

-- ### Basic facts about `pickBest` and the cluster maximum

theorem pickBest_mem (best : Candidate) (ms : List Candidate) :
    pickBest best ms ∈ best :: ms := by
  induction ms generalizing best with
  | nil => simp [pickBest]
  | cons x xs ih =>
      rw [pickBest]
      have h := List.mem_cons.mp
        (ih (if best.detection_confidence < x.detection_confidence then x else best))
      rcases h with h | h
      · rw [h]
        split
        · simp
        · simp
      · simp [h]

theorem pickBest_conf_ge (best : Candidate) (ms : List Candidate) :
    ∀ m ∈ best :: ms,
      m.detection_confidence ≤ (pickBest best ms).detection_confidence := by
  induction ms generalizing best with
  | nil => simp [pickBest]
  | cons x xs ih =>
      intro m hm
      rw [pickBest]
      have hbx : best.detection_confidence ≤
          (if best.detection_confidence < x.detection_confidence then x
           else best).detection_confidence := by
        split
        next h => exact le_of_lt h
        next => exact le_rfl
      have hxx : x.detection_confidence ≤
          (if best.detection_confidence < x.detection_confidence then x
           else best).detection_confidence := by
        split
        next => exact le_rfl
        next h => exact le_of_not_lt h
      have hhead := ih (if best.detection_confidence < x.detection_confidence then x else best)
      rw [List.mem_cons, List.mem_cons] at hm
      rcases hm with rfl | rfl | hm
      · exact le_trans hbx (hhead _ (by simp))
      · exact le_trans hxx (hhead _ (by simp))
      · exact hhead m (by simp [hm])

theorem pickBest_of_all_le (best : Candidate) (ms : List Candidate)
    (h : ∀ m ∈ ms, m.detection_confidence ≤ best.detection_confidence) :
    pickBest best ms = best := by
  induction ms with
  | nil => rfl
  | cons x xs ih =>
      rw [pickBest, if_neg (not_lt.mpr (h x (by simp)))]
      exact ih fun m hm => h m (by simp [hm])

theorem clusterMaxConf_init_le (q : ℚ) (xs : List Candidate) :
    q ≤ xs.foldl (fun a x => max a x.detection_confidence) q := by
  induction xs generalizing q with
  | nil => simp
  | cons x xs ih =>
      exact le_trans (le_max_left q x.detection_confidence) (ih _)

theorem clusterMaxConf_mem_le (q : ℚ) (xs : List Candidate) :
    ∀ m ∈ xs,
      m.detection_confidence ≤ xs.foldl (fun a x => max a x.detection_confidence) q := by
  induction xs generalizing q with
  | nil => simp
  | cons x xs ih =>
      intro m hm
      rw [List.mem_cons] at hm
      rcases hm with rfl | hm
      · exact le_trans (le_max_right q m.detection_confidence) (clusterMaxConf_init_le _ _)
      · exact ih _ m hm

theorem clusterMaxConf_cons (f x : Candidate) (xs : List Candidate) :
    clusterMaxConf (f, x :: xs) =
      clusterMaxConf
        ((if f.detection_confidence < x.detection_confidence then x else f), xs) := by
  unfold clusterMaxConf
  simp only [List.foldl_cons]
  congr 1
  split
  next h => exact max_eq_right (le_of_lt h)
  next h => exact max_eq_left (le_of_not_lt h)

theorem specCanonical_mk (f : Candidate) (ms : List Candidate) :
    specCanonical (f, ms) =
      (f :: ms).find? (fun c => c.detection_confidence == clusterMaxConf (f, ms)) := rfl

theorem find?_confEq_cons_pos (M : ℚ) (a : Candidate) (l : List Candidate)
    (h : a.detection_confidence = M) :
    (a :: l).find? (fun c => c.detection_confidence == M) = some a :=
  List.find?_cons_of_pos _ (by simpa using h)

theorem find?_confEq_cons_neg (M : ℚ) (a : Candidate) (l : List Candidate)
    (h : a.detection_confidence ≠ M) :
    (a :: l).find? (fun c => c.detection_confidence == M) =
      l.find? (fun c => c.detection_confidence == M) :=
  List.find?_cons_of_neg _ (by simpa using h)

/-- The spec's canonical-record rule (first member whose confidence equals
the cluster maximum) coincides with Python's `max(cluster, key=...)`. -/
theorem specCanonical_eq_pickBest (ms : List Candidate) (f : Candidate) :
    specCanonical (f, ms) = some (pickBest f ms) := by
  induction ms generalizing f with
  | nil => simp [specCanonical_mk, clusterMaxConf, pickBest]
  | cons x xs ih =>
      have hM := clusterMaxConf_cons f x xs
      rw [specCanonical_mk, pickBest]
      by_cases hfx : f.detection_confidence < x.detection_confidence
      · -- the head is strictly beaten, so it is not the first maximum
        rw [if_pos hfx] at hM ⊢
        have hxM : x.detection_confidence ≤ clusterMaxConf (f, x :: xs) := by
          rw [hM]
          exact clusterMaxConf_init_le _ _
        have hfM : f.detection_confidence ≠ clusterMaxConf (f, x :: xs) := by
          intro h
          exact absurd (lt_of_lt_of_le hfx hxM) (by rw [← h]; exact lt_irrefl _)
        rw [find?_confEq_cons_neg _ _ _ hfM, hM]
        have hx := ih x
        rw [specCanonical_mk] at hx
        exact hx
      · rw [if_neg hfx] at hM ⊢
        have hfle : f.detection_confidence ≤ clusterMaxConf (f, x :: xs) := by
          rw [hM]
          exact clusterMaxConf_init_le f.detection_confidence xs
        by_cases hf : f.detection_confidence = clusterMaxConf (f, x :: xs)
        · -- the head attains the maximum, so it is kept throughout
          rw [find?_confEq_cons_pos _ _ _ hf]
          have hall : ∀ m ∈ xs, m.detection_confidence ≤ f.detection_confidence := by
            intro m hm
            rw [hf, hM]
            exact clusterMaxConf_mem_le _ _ m hm
          rw [pickBest_of_all_le f xs hall]
        · -- the head is below the maximum, which is attained further right
          have hflt : f.detection_confidence < clusterMaxConf (f, x :: xs) :=
            lt_of_le_of_ne hfle hf
          have hxlt : x.detection_confidence < clusterMaxConf (f, x :: xs) :=
            lt_of_le_of_lt (le_of_not_lt hfx) hflt
          rw [find?_confEq_cons_neg _ _ _ (ne_of_lt hflt),
            find?_confEq_cons_neg _ _ _ (ne_of_lt hxlt), hM]
          have hrec := ih f
          rw [specCanonical_mk,
            find?_confEq_cons_neg _ _ _ (by rw [← hM]; exact ne_of_lt hflt)] at hrec
          exact hrec

/-- The source's consolidation loop computes, cluster by cluster, the
spec-side canonical record of each greedy cluster. -/
theorem consolidateLoop_eq_filterMap (rest : List Candidate) (first : Candidate)
    (members : List Candidate) :
    consolidateLoop first members rest =
      (specClusters first members rest).filterMap specCanonical := by
  induction rest generalizing first members with
  | nil => simp [consolidateLoop, specClusters, specCanonical_eq_pickBest]
  | cons d ds ih =>
      rw [consolidateLoop, specClusters]
      split
      · exact ih _ _
      · simp [List.filterMap_cons, specCanonical_eq_pickBest, ih]

theorem consolidateLoop_length_eq (rest : List Candidate) (first : Candidate)
    (members : List Candidate) :
    (consolidateLoop first members rest).length =
      (specClusters first members rest).length := by
  induction rest generalizing first members with
  | nil => simp [consolidateLoop, specClusters]
  | cons d ds ih =>
      rw [consolidateLoop, specClusters]
      split
      · exact ih _ _
      · simp [ih]

theorem consolidateLoop_ne_nil (rest : List Candidate) (first : Candidate)
    (members : List Candidate) :
    consolidateLoop first members rest ≠ [] := by
  induction rest generalizing first members with
  | nil => simp [consolidateLoop]
  | cons d ds ih =>
      rw [consolidateLoop]
      split
      · exact ih _ _
      · simp

theorem consolidateLoop_length_le (rest : List Candidate) (first : Candidate)
    (members : List Candidate) :
    (consolidateLoop first members rest).length ≤ 1 + rest.length := by
  induction rest generalizing first members with
  | nil => simp [consolidateLoop]
  | cons d ds ih =>
      rw [consolidateLoop]
      split
      · exact le_trans (ih _ _) (by simp)
      · have h := ih d []
        simp only [List.length_cons]
        omega

theorem consolidateLoop_mem (rest : List Candidate) (first : Candidate)
    (members : List Candidate) :
    ∀ c ∈ consolidateLoop first members rest, c ∈ (first :: members) ++ rest := by
  induction rest generalizing first members with
  | nil =>
      intro c hc
      rw [consolidateLoop] at hc
      rcases List.mem_singleton.mp hc with rfl
      simpa using pickBest_mem first members
  | cons d ds ih =>
      intro c hc
      rw [consolidateLoop] at hc
      split at hc
      · have := ih first (members ++ [d]) c hc
        simp only [List.cons_append, List.mem_cons, List.mem_append,
          List.mem_singleton] at this ⊢
        tauto
      · rw [List.mem_cons] at hc
        rcases hc with rfl | hc
        · have := pickBest_mem first members
          simp only [List.cons_append, List.mem_cons, List.mem_append] at this ⊢
          tauto
        · have := ih d [] c hc
          simp only [List.cons_append, List.mem_cons, List.mem_append,
            List.mem_singleton, List.not_mem_nil] at this ⊢
          tauto

theorem consolidateLoop_start_lb (rest : List Candidate) (first : Candidate)
    (members : List Candidate) (lo : ℤ)
    (h1 : ∀ m ∈ first :: members, lo ≤ m.crisis_start_date)
    (h2 : ∀ r ∈ rest, lo ≤ r.crisis_start_date) :
    ∀ c ∈ consolidateLoop first members rest, lo ≤ c.crisis_start_date := by
  intro c hc
  have h := consolidateLoop_mem rest first members c hc
  rw [List.cons_append, List.mem_cons, List.mem_append] at h
  rcases h with rfl | h | h
  · exact h1 c (by simp)
  · exact h1 c (by simp [h])
  · exact h2 c h

/-- Emitted canonical records of the consolidation loop have strictly
increasing start dates: each cluster's emitted member starts at most 60
days after its anchor, while the next cluster's members all start strictly
more than 60 days after it. -/
theorem consolidateLoop_chain (rest : List Candidate) (first : Candidate)
    (members : List Candidate)
    (hm : ∀ m ∈ members, first.crisis_start_date ≤ m.crisis_start_date ∧
            m.crisis_start_date - first.crisis_start_date ≤ 60)
    (hlo : ∀ r ∈ rest, first.crisis_start_date ≤ r.crisis_start_date)
    (hp : List.Pairwise (fun a b => a.crisis_start_date ≤ b.crisis_start_date) rest) :
    List.Chain' (fun a b => a.crisis_start_date < b.crisis_start_date)
      (consolidateLoop first members rest) := by
  induction rest generalizing first members with
  | nil => simp [consolidateLoop]
  | cons d ds ih =>
      rw [consolidateLoop]
      rw [List.pairwise_cons] at hp
      obtain ⟨hd, hp'⟩ := hp
      split
      next hjoin =>
        apply ih
        · intro m hm'
          rw [List.mem_append, List.mem_singleton] at hm'
          rcases hm' with hm' | rfl
          · exact hm m hm'
          · have h0 : first.crisis_start_date ≤ m.crisis_start_date := hlo m (by simp)
            omega
        · intro r hr
          exact hlo r (by simp [hr])
        · exact hp'
      next hsplit =>
        rw [List.chain'_cons']
        constructor
        · intro y hy
          have hy' : y ∈ consolidateLoop d [] ds := List.mem_of_mem_head? hy
          have hylo : d.crisis_start_date ≤ y.crisis_start_date :=
            consolidateLoop_start_lb ds d [] d.crisis_start_date (by simp) hd y hy'
          have hub : (pickBest first members).crisis_start_date ≤
              first.crisis_start_date + 60 := by
            rcases List.mem_cons.mp (pickBest_mem first members) with h | h
            · rw [h]
              omega
            · have := (hm _ h).2
              omega
          have h0 : first.crisis_start_date ≤ d.crisis_start_date := hlo d (by simp)
          omega
        · exact ih d [] (by simp) hd hp'

theorem sortByStart_sorted (l : List Candidate) :
    List.Pairwise (fun a b => a.crisis_start_date ≤ b.crisis_start_date)
      (sortByStart l) := by
  have h : (List.mergeSort l startLE).Pairwise (fun a b => startLE a b) :=
    List.sorted_mergeSort
      (fun a b c hab hbc => by
        simp only [startLE, decide_eq_true_eq] at *
        omega)
      (fun a b => by
        simp only [startLE, Bool.or_eq_true, decide_eq_true_eq]
        omega) l
  exact h.imp fun hab => by simpa [startLE] using hab

theorem mergeSort_pair (le : Candidate → Candidate → Bool) (a b : Candidate) :
    [a, b].mergeSort le = if le a b then [a, b] else [b, a] := by
  rw [List.mergeSort]
  simp [List.merge]

theorem consolidate_subset (l : List Candidate) :
    ∀ c ∈ _consolidate_detections l, c ∈ l := by
  intro c hc
  rw [_consolidate_detections] at hc
  cases hs : sortByStart l with
  | nil => rw [hs] at hc; simp at hc
  | cons x xs =>
      rw [hs] at hc
      have h := consolidateLoop_mem xs x [] c hc
      have hmem : c ∈ sortByStart l := by
        rw [hs]
        simpa using h
      rw [sortByStart, List.mem_mergeSort] at hmem
      exact hmem

theorem roundHalfToEven_nonneg (q : ℚ) (h : 0 ≤ q) : 0 ≤ roundHalfToEven q := by
  rw [roundHalfToEven]
  have hf : (0 : ℤ) ≤ ⌊q⌋ := Int.floor_nonneg.mpr h
  split
  · split
    · exact hf
    · omega
  · exact Int.floor_nonneg.mpr (by linarith)

theorem roundHalfToEven_le (q : ℚ) (B : ℤ) (h : q ≤ B) : roundHalfToEven q ≤ B := by
  rw [roundHalfToEven]
  have hfB : ⌊q⌋ ≤ B := by
    calc ⌊q⌋ ≤ ⌊(B : ℚ)⌋ := Int.floor_le_floor h
    _ = B := Int.floor_intCast B
  split
  next htie =>
    split
    · exact hfB
    · -- at a tie `q = ⌊q⌋ + 1/2`, so `⌊q⌋ < B`
      have hq : q = (⌊q⌋ : ℚ) + 1/2 := by linarith
      have : (⌊q⌋ : ℚ) < B := by
        rw [hq] at h
        linarith
      have : ⌊q⌋ < B := by exact_mod_cast this
      omega
  next =>
    have : ⌊q + 1/2⌋ < B + 1 := by
      rw [Int.floor_lt]
      push_cast
      linarith
    omega

theorem roundTo_mem_unit (k : ℕ) (q : ℚ) (h0 : 0 ≤ q) (h1 : q ≤ 1) :
    0 ≤ roundTo k q ∧ roundTo k q ≤ 1 := by
  rw [roundTo]
  have hp : (0 : ℚ) < 10 ^ k := by positivity
  have hlo : 0 ≤ roundHalfToEven (q * 10 ^ k) :=
    roundHalfToEven_nonneg _ (by positivity)
  have hhi : roundHalfToEven (q * 10 ^ k) ≤ (10 : ℤ) ^ k := by
    apply roundHalfToEven_le
    push_cast
    calc q * 10 ^ k ≤ 1 * 10 ^ k := by
          exact mul_le_mul_of_nonneg_right h1 (le_of_lt hp)
    _ = 10 ^ k := one_mul _
  constructor
  · positivity
  · rw [div_le_one hp]
    exact_mod_cast hhi

theorem consolidate_eq_clusters (l : List Candidate) :
    _consolidate_detections l = (greedyClusters l).filterMap specCanonical := by
  rw [_consolidate_detections, greedyClusters]
  cases sortByStart l with
  | nil => rfl
  | cons x xs => exact consolidateLoop_eq_filterMap xs x []

/-- C1: for every non-empty candidate list, consolidation equals the
spec-described process — sort by start date, greedily cluster against the
cluster anchor with the 60-day rule, and emit per cluster the canonical
record, namely the first-encountered member attaining the cluster's
maximal confidence — so one record is emitted per cluster and no emitted
record's confidence is below any of its cluster-mates'. -/
theorem consolidate_greedy_cluster_max (l : List Candidate) (hl : l ≠ []) :
    _consolidate_detections l = (greedyClusters l).filterMap specCanonical
  ∧ (_consolidate_detections l).length = (greedyClusters l).length
  ∧ ∀ cl ∈ greedyClusters l,
      specCanonical cl = some (pickBest cl.1 cl.2)
      ∧ pickBest cl.1 cl.2 ∈ cl.1 :: cl.2
      ∧ ∀ m ∈ cl.1 :: cl.2,
          m.detection_confidence ≤ (pickBest cl.1 cl.2).detection_confidence := by
  refine ⟨consolidate_eq_clusters l, ?_, ?_⟩
  · rw [_consolidate_detections, greedyClusters]
    cases sortByStart l with
    | nil => rfl
    | cons x xs => exact consolidateLoop_length_eq xs x []
  · intro cl hcl
    exact ⟨specCanonical_eq_pickBest cl.2 cl.1, pickBest_mem _ _, pickBest_conf_ge _ _⟩

theorem consolidate_greedy_cluster_max_witness :
    ([candB] : List Candidate) ≠ []
  ∧ _consolidate_detections [candB] = (greedyClusters [candB]).filterMap specCanonical :=
  ⟨by simp, (consolidate_greedy_cluster_max [candB] (by simp)).1⟩

/-- C10: for every non-empty candidate list, the consolidated output is
non-empty, no longer than the input, consists of unaltered input
candidates, and its start dates are strictly increasing. -/
theorem consolidate_output_invariants (l : List Candidate) (hl : l ≠ []) :
    _consolidate_detections l ≠ []
  ∧ (_consolidate_detections l).length ≤ l.length
  ∧ (∀ c ∈ _consolidate_detections l, c ∈ l)
  ∧ List.Pairwise (fun a b => a.crisis_start_date < b.crisis_start_date)
      (_consolidate_detections l) := by
  have hlen : (sortByStart l).length = l.length := by
    rw [sortByStart]
    exact List.length_mergeSort l
  have hsorted := sortByStart_sorted l
  cases hs : sortByStart l with
  | nil =>
      exfalso
      apply hl
      rw [hs] at hlen
      exact (List.eq_nil_of_length_eq_zero hlen.symm)
  | cons x xs =>
      rw [hs] at hsorted hlen
      have hcons : _consolidate_detections l = consolidateLoop x [] xs := by
        rw [_consolidate_detections, hs]
      rw [List.pairwise_cons] at hsorted
      obtain ⟨hd, hp⟩ := hsorted
      have hchain := consolidateLoop_chain xs x [] (by simp) hd hp
      refine ⟨?_, ?_, consolidate_subset l, ?_⟩
      · rw [hcons]
        exact consolidateLoop_ne_nil xs x []
      · rw [hcons]
        calc (consolidateLoop x [] xs).length ≤ 1 + xs.length :=
              consolidateLoop_length_le xs x []
        _ = (x :: xs).length := by simp [Nat.add_comm]
        _ = l.length := hlen
      · rw [hcons]
        haveI : IsTrans Candidate (fun a b => a.crisis_start_date < b.crisis_start_date) :=
          ⟨fun a b c h1 h2 => lt_trans h1 h2⟩
        exact List.chain'_iff_pairwise.mp hchain

theorem consolidate_output_invariants_witness :
    ([candA] : List Candidate) ≠ [] ∧ _consolidate_detections [candA] ≠ [] :=
  ⟨by simp, (consolidate_output_invariants [candA] (by simp)).1⟩

theorem consolidateLoop_all_far (xs : List Candidate) (x : Candidate)
    (hfar : ∀ d ∈ xs, ¬(d.crisis_start_date - x.crisis_start_date).natAbs ≤ 60)
    (hp : List.Pairwise
      (fun a b => 60 < (b.crisis_start_date - a.crisis_start_date).natAbs) xs) :
    consolidateLoop x [] xs = x :: xs := by
  induction xs generalizing x with
  | nil => simp [consolidateLoop, pickBest]
  | cons d ds ih =>
      rw [consolidateLoop, if_neg (hfar d (by simp))]
      rw [List.pairwise_cons] at hp
      obtain ⟨hd, hp'⟩ := hp
      show x :: consolidateLoop d [] ds = x :: d :: ds
      rw [ih d (fun e he => by have := hd e he; omega) hp']

/-- C9 counterexample: a two-candidate list whose start dates are pairwise
more than 60 days apart but is not sorted; consolidation returns it
sorted, hence changed. -/
theorem consolidate_unsorted_fixed_point_cex :
    60 < (candA.crisis_start_date - candB.crisis_start_date).natAbs
  ∧ _consolidate_detections [candA, candB] = [candB, candA]
  ∧ [candB, candA] ≠ [candA, candB] := by
  refine ⟨by decide, ?_, by simp [candA, candB]⟩
  rw [_consolidate_detections, sortByStart, mergeSort_pair]
  rfl

/-- C9 amended: consolidation leaves a list unchanged when it is sorted
ascending by start date with pairwise starts more than 60 days apart. -/
theorem consolidate_sorted_gapped_fixed_point (l : List Candidate)
    (hs : List.Pairwise (fun a b => a.crisis_start_date ≤ b.crisis_start_date) l)
    (hgap : List.Pairwise
      (fun a b => 60 < (b.crisis_start_date - a.crisis_start_date).natAbs) l) :
    _consolidate_detections l = l := by
  have hsort : sortByStart l = l := by
    rw [sortByStart]
    exact List.mergeSort_of_sorted (hs.imp fun hab => by simpa [startLE] using hab)
  rw [_consolidate_detections, hsort]
  cases l with
  | nil => rfl
  | cons x xs =>
      rw [List.pairwise_cons] at hgap
      obtain ⟨hd, hp⟩ := hgap
      exact consolidateLoop_all_far xs x (fun d hdm => by have := hd d hdm; omega) hp

theorem consolidate_sorted_gapped_witness :
    List.Pairwise (fun a b => a.crisis_start_date ≤ b.crisis_start_date) [candB, candA]
  ∧ List.Pairwise
      (fun a b => 60 < (b.crisis_start_date - a.crisis_start_date).natAbs) [candB, candA]
  ∧ _consolidate_detections [candB, candA] = [candB, candA] :=
  ⟨by decide, by decide,
    consolidate_sorted_gapped_fixed_point [candB, candA] (by decide) (by decide)⟩

theorem low_ratio_extract_none (w : WindowResult) (h : volRatioOf w < 3/2) :
    _extract_change_point w = none := by
  cases h1 : w.window_dates[w.t1_idx]? with
  | none => simp [_extract_change_point, h1]
  | some cs =>
      cases h2 : w.window_dates[w.t2_idx]? with
      | none => simp [_extract_change_point, h1, h2]
      | some ce => simp [_extract_change_point, h1, h2, h]

/-- C4: a window whose volatility ratio is below 1.5 produces no
candidate, and every record of the final consolidated set originates in a
window whose volatility ratio was at least 1.5. -/
theorem low_vol_ratio_never_in_consolidated :
    (∀ w : WindowResult, volRatioOf w < 3/2 → _extract_change_point w = none)
  ∧ ∀ (min_confidence : ℚ) (ws : List WindowResult) (c : Candidate),
      c ∈ _consolidate_detections (scanCandidates min_confidence ws) →
      ∃ w ∈ ws, _extract_change_point w = some c ∧ 3/2 ≤ volRatioOf w := by
  refine ⟨fun w h => low_ratio_extract_none w h, ?_⟩
  intro minC ws c hc
  have hmem := consolidate_subset _ c hc
  rw [scanCandidates, List.mem_filterMap] at hmem
  obtain ⟨w, hw, hfw⟩ := hmem
  refine ⟨w, hw, ?_⟩
  cases hx : _extract_change_point w with
  | none =>
      simp only [hx] at hfw
      exact absurd hfw (by simp)
  | some cp =>
      simp only [hx] at hfw
      by_cases hconf : minC ≤ cp.detection_confidence
      · rw [if_pos hconf] at hfw
        refine ⟨hfw, ?_⟩
        by_contra hlt
        push_neg at hlt
        have hnone := low_ratio_extract_none w hlt
        rw [hnone] at hx
        exact absurd hx (by simp)
      · rw [if_neg hconf] at hfw
        exact absurd hfw (by simp)

theorem low_vol_ratio_witness :
    volRatioOf lowWindow < 3/2 ∧ _extract_change_point lowWindow = none :=
  ⟨by norm_num [volRatioOf, lowWindow],
    low_vol_ratio_never_in_consolidated.1 lowWindow (by norm_num [volRatioOf, lowWindow])⟩

theorem roundTo_two_thirds : roundTo 4 (2/3 : ℚ) = 6667/10000 := by
  have hfloor : ⌊(2/3 : ℚ) * 10 ^ 4⌋ = 6666 := by
    rw [Int.floor_eq_iff]
    norm_num
  have hfloor2 : ⌊(2/3 : ℚ) * 10 ^ 4 + 1/2⌋ = 6667 := by
    rw [Int.floor_eq_iff]
    norm_num
  rw [roundTo, roundHalfToEven, hfloor]
  rw [if_neg (by norm_num)]
  rw [hfloor2]
  norm_num

/-- C3 amended: the extracted `detection_confidence` equals the average of
the two breakpoint confidences `max(0, 1 − std_i/(window_length/4))`
**rounded to 4 decimal places** (the source stores
`round(avg_confidence, 4)`), and this stored value lies in `[0, 1]`. -/
theorem extract_confidence_rounded_in_unit (w : WindowResult) (c : Candidate)
    (h1 : 0 ≤ w.tau_1_std) (h2 : 0 ≤ w.tau_2_std)
    (hc : _extract_change_point w = some c) :
    c.detection_confidence =
      roundTo 4 ((max 0 (1 - w.tau_1_std / ((w.window_dates.length : ℚ) / 4))
        + max 0 (1 - w.tau_2_std / ((w.window_dates.length : ℚ) / 4))) / 2)
    ∧ 0 ≤ c.detection_confidence ∧ c.detection_confidence ≤ 1 := by
  cases hg1 : w.window_dates[w.t1_idx]? with
  | none => simp [_extract_change_point, hg1] at hc
  | some cs =>
      cases hg2 : w.window_dates[w.t2_idx]? with
      | none => simp [_extract_change_point, hg1, hg2] at hc
      | some ce =>
          simp only [_extract_change_point, hg1, hg2] at hc
          by_cases hr : volRatioOf w < 3/2
          · rw [if_pos hr] at hc
            exact absurd hc (by simp)
          · rw [if_neg hr] at hc
            have hceq := Option.some.inj hc
            have hlen : 0 < w.window_dates.length := by
              rcases List.getElem?_eq_some.mp hg1 with ⟨hlt, -⟩
              omega
            have hLpos : (0 : ℚ) < (w.window_dates.length : ℚ) / 4 := by
              have : (0 : ℚ) < (w.window_dates.length : ℚ) := by exact_mod_cast hlen
              linarith
            have hconf1lo : (0 : ℚ) ≤ max 0 (1 - w.tau_1_std / ((w.window_dates.length : ℚ) / 4)) :=
              le_max_left 0 _
            have hconf2lo : (0 : ℚ) ≤ max 0 (1 - w.tau_2_std / ((w.window_dates.length : ℚ) / 4)) :=
              le_max_left 0 _
            have hconf1hi : max 0 (1 - w.tau_1_std / ((w.window_dates.length : ℚ) / 4)) ≤ 1 := by
              apply max_le (by norm_num)
              have : 0 ≤ w.tau_1_std / ((w.window_dates.length : ℚ) / 4) :=
                div_nonneg h1 (le_of_lt hLpos)
              linarith
            have hconf2hi : max 0 (1 - w.tau_2_std / ((w.window_dates.length : ℚ) / 4)) ≤ 1 := by
              apply max_le (by norm_num)
              have : 0 ≤ w.tau_2_std / ((w.window_dates.length : ℚ) / 4) :=
                div_nonneg h2 (le_of_lt hLpos)
              linarith
            have havg0 : (0 : ℚ) ≤
                (max 0 (1 - w.tau_1_std / ((w.window_dates.length : ℚ) / 4))
                  + max 0 (1 - w.tau_2_std / ((w.window_dates.length : ℚ) / 4))) / 2 := by
              linarith
            have havg1 :
                (max 0 (1 - w.tau_1_std / ((w.window_dates.length : ℚ) / 4))
                  + max 0 (1 - w.tau_2_std / ((w.window_dates.length : ℚ) / 4))) / 2 ≤ 1 := by
              linarith
            have hbound := roundTo_mem_unit 4 _ havg0 havg1
            refine ⟨?_, ?_, ?_⟩
            · rw [← hceq]
            · rw [← hceq]
              exact hbound.1
            · rw [← hceq]
              exact hbound.2

theorem roundTo_eq_self (k : ℕ) (q : ℚ) (n : ℤ) (h : q * 10 ^ k = (n : ℚ)) :
    roundTo k q = q := by
  have h1 : roundHalfToEven ((n : ℚ)) = n := by
    rw [roundHalfToEven, Int.floor_intCast]
    rw [if_neg (by norm_num)]
    rw [Int.floor_eq_iff]
    constructor
    · linarith
    · push_cast
      linarith
  rw [roundTo, h, h1, ← h]
  exact mul_div_cancel_right₀ q (by positivity)

set_option maxRecDepth 20000 in
/-- C3 counterexample: a window of 120 observations with both breakpoint
standard deviations 10 gives average confidence `2/3`, but the stored
`detection_confidence` is `round(2/3, 4) = 0.6667 ≠ 2/3`. -/
theorem extract_confidence_rounding_cex :
    (_extract_change_point cexWindow).map (fun c => c.detection_confidence)
      = some (6667/10000)
  ∧ (max 0 (1 - cexWindow.tau_1_std / ((cexWindow.window_dates.length : ℚ) / 4))
      + max 0 (1 - cexWindow.tau_2_std / ((cexWindow.window_dates.length : ℚ) / 4))) / 2
      = 2/3
  ∧ ((6667 : ℚ)/10000) ≠ 2/3 := by
  have hg1 : cexWindow.window_dates[cexWindow.t1_idx]? = some 10 := by decide
  have hg2 : cexWindow.window_dates[cexWindow.t2_idx]? = some 100 := by decide
  have hlen : cexWindow.window_dates.length = 120 := by rfl
  have hstd1 : cexWindow.tau_1_std = 10 := rfl
  have hstd2 : cexWindow.tau_2_std = 10 := rfl
  have hmax : max (0:ℚ) (1 - 10 / ((120 : ℚ) / 4)) = 2/3 := by
    rw [max_eq_right (by norm_num)]
    norm_num
  have havg : (max 0 (1 - cexWindow.tau_1_std / ((cexWindow.window_dates.length : ℚ) / 4))
      + max 0 (1 - cexWindow.tau_2_std / ((cexWindow.window_dates.length : ℚ) / 4))) / 2
      = 2/3 := by
    rw [hstd1, hstd2, hlen]
    norm_num [hmax]
  refine ⟨?_, havg, by norm_num⟩
  simp only [_extract_change_point, hg1, hg2]
  rw [if_neg (by norm_num [volRatioOf, cexWindow])]
  simp only [Option.map_some']
  rw [havg, roundTo_two_thirds]

theorem extract_witWindow :
    _extract_change_point witWindow = some ⟨1, 2, 1, 2, 1, 1, 365, ""⟩ := by
  have hg1 : witWindow.window_dates[witWindow.t1_idx]? = some 1 := by rfl
  have hg2 : witWindow.window_dates[witWindow.t2_idx]? = some 2 := by rfl
  have hr1 : roundTo 5 (1:ℚ) = 1 := roundTo_eq_self 5 1 100000 (by norm_num)
  have hr2 : roundTo 5 (2:ℚ) = 2 := roundTo_eq_self 5 2 200000 (by norm_num)
  have hr4 : roundTo 4 (1:ℚ) = 1 := roundTo_eq_self 4 1 10000 (by norm_num)
  simp only [_extract_change_point, hg1, hg2]
  rw [if_neg (by norm_num [volRatioOf, witWindow])]
  norm_num [witWindow, hr1, hr2, hr4, max_def]

theorem extract_confidence_witness :
    (0:ℚ) ≤ witWindow.tau_1_std
  ∧ ((⟨1, 2, 1, 2, 1, 1, 365, ""⟩ : Candidate).detection_confidence =
      roundTo 4 ((max 0 (1 - witWindow.tau_1_std / ((witWindow.window_dates.length : ℚ) / 4))
        + max 0 (1 - witWindow.tau_2_std / ((witWindow.window_dates.length : ℚ) / 4))) / 2)
    ∧ 0 ≤ (⟨1, 2, 1, 2, 1, 1, 365, ""⟩ : Candidate).detection_confidence
    ∧ (⟨1, 2, 1, 2, 1, 1, 365, ""⟩ : Candidate).detection_confidence ≤ 1) :=
  ⟨by norm_num [witWindow],
    extract_confidence_rounded_in_unit witWindow _
      (by norm_num [witWindow]) (by norm_num [witWindow]) extract_witWindow⟩

theorem slidingStartsGo_mem (endD w step : ℤ) (fuel : ℕ) :
    ∀ cur : ℤ, ∀ s ∈ slidingStartsGo endD w step fuel cur,
      ∃ k : ℕ, s = cur + (k : ℤ) * step := by
  induction fuel with
  | zero =>
      intro cur s hs
      simp [slidingStartsGo] at hs
  | succ n ih =>
      intro cur s hs
      rw [slidingStartsGo] at hs
      split at hs
      · rcases List.mem_cons.mp hs with rfl | hs
        · exact ⟨0, by simp⟩
        · obtain ⟨k, hk⟩ := ih (cur + step) s hs
          refine ⟨k + 1, ?_⟩
          push_cast [hk]
          ring
      · simp at hs

theorem slidingStartsGo_pairwise (endD w step : ℤ) (fuel : ℕ) :
    ∀ cur : ℤ, List.Pairwise (fun a b => ∃ k : ℕ, 1 ≤ k ∧ b - a = (k : ℤ) * step)
      (slidingStartsGo endD w step fuel cur) := by
  induction fuel with
  | zero =>
      intro cur
      simp [slidingStartsGo]
  | succ n ih =>
      intro cur
      rw [slidingStartsGo]
      split
      · refine List.Pairwise.cons ?_ (ih (cur + step))
        intro b hb
        obtain ⟨k, hk⟩ := slidingStartsGo_mem endD w step n (cur + step) b hb
        refine ⟨k + 1, by omega, ?_⟩
        push_cast [hk]
        ring
      · simp

theorem pairwise_filterMap_of {α β : Type} (R : α → α → Prop) (S : β → β → Prop)
    (f : α → Option β)
    (hf : ∀ a b x y, R a b → f a = some x → f b = some y → S x y) :
    ∀ l : List α, List.Pairwise R l → List.Pairwise S (l.filterMap f) := by
  intro l hl
  induction hl with
  | nil => simp
  | @cons a l ha hp ih =>
      rw [List.filterMap_cons]
      cases hfa : f a with
      | none => exact ih
      | some x =>
          refine List.Pairwise.cons ?_ ih
          intro y hy
          rw [List.mem_filterMap] at hy
          obtain ⟨b, hb, hfb⟩ := hy
          exact hf a b x y (ha b hb) hfa hfb

/-- C2 amended: every emitted window `(s, e, obs)` spans exactly
`window_size` days (`e − s = window_size`) and holds at least 100
observations, and the start dates of consecutive *emitted* windows differ
by a positive integer multiple of `step_size` — exactly `step_size` only
when no in-between window was discarded for holding fewer than 100
observations. -/
theorem sliding_windows_span_and_steps (dates : List ℤ) (window_size step_size : ℤ) :
    (∀ x ∈ get_sliding_windows dates window_size step_size,
        x.2.1 - x.1 = window_size ∧ 100 ≤ x.2.2.length)
  ∧ List.Pairwise (fun a b => ∃ k : ℕ, 1 ≤ k ∧ b.1 - a.1 = (k : ℤ) * step_size)
      (get_sliding_windows dates window_size step_size) := by
  constructor
  · intro x hx
    cases hmin : dates.min? with
    | none =>
        rw [get_sliding_windows, hmin] at hx
        simp at hx
    | some start_date =>
        cases hmax : dates.max? with
        | none =>
            rw [get_sliding_windows, hmin, hmax] at hx
            simp at hx
        | some end_date =>
            rw [get_sliding_windows, hmin, hmax] at hx
            rw [List.mem_filterMap] at hx
            obtain ⟨cur, hcur, hfc⟩ := hx
            dsimp only [] at hfc
            split at hfc
            · have hx' := Option.some.inj hfc
              rw [← hx']
              constructor
              · simp
              · simpa using by assumption
            · exact absurd hfc (by simp)
  · cases hmin : dates.min? with
    | none =>
        rw [get_sliding_windows, hmin]
        simp
    | some start_date =>
        cases hmax : dates.max? with
        | none =>
            rw [get_sliding_windows, hmin, hmax]
            simp
        | some end_date =>
            rw [get_sliding_windows, hmin, hmax]
            apply pairwise_filterMap_of
              (fun a b => ∃ k : ℕ, 1 ≤ k ∧ b - a = (k : ℤ) * step_size)
            · intro a b x y hab hfa hfb
              have hxa : x.1 = a := by
                dsimp only [] at hfa
                split at hfa
                · rw [← Option.some.inj hfa]
                · exact absurd hfa (by simp)
              have hyb : y.1 = b := by
                dsimp only [] at hfb
                split at hfb
                · rw [← Option.some.inj hfb]
                · exact absurd hfb (by simp)
              rw [hxa, hyb]
              exact hab
            · exact slidingStartsGo_pairwise end_date window_size step_size _ start_date

set_option maxRecDepth 40000 in
/-- C2 counterexample: with window size 200 and step 200 on `gapDates`,
the middle generated window `[200, 400]` holds a single observation and is
discarded, so the two *emitted* windows start at 0 and 400: consecutive
emitted start dates differ by 400, not by the step size 200. -/
theorem sliding_windows_step_gap_cex :
    ((get_sliding_windows gapDates 200 200).map (fun x => x.1)) = [0, 400]
  ∧ ¬((400 : ℤ) - 0 = 200) := by
  constructor
  · decide
  · decide

set_option maxRecDepth 40000 in
theorem sliding_windows_span_witness :
    (200 : ℤ) - 0 = 200 ∧ 100 ≤ (windowObs gapDates 0 200).length :=
  (sliding_windows_span_and_steps gapDates 200 200).1
    (0, 200, windowObs gapDates 0 200) (by decide)

theorem applyCrisisRow_date (cp : Candidate) (r : RegimeRow) :
    (applyCrisisRow cp r).date = r.date := by
  rw [applyCrisisRow]
  split
  · rfl
  · split
    · rfl
    · split
      · rfl
      · rfl

theorem foldl_apply_dates (cps : List Candidate) :
    ∀ rows : List RegimeRow,
      ((cps.foldl (fun rs cp => rs.map (applyCrisisRow cp)) rows).map fun r => r.date)
        = rows.map fun r => r.date := by
  induction cps with
  | nil =>
      intro rows
      rfl
  | cons cp cps ih =>
      intro rows
      rw [List.foldl_cons, ih, List.map_map]
      exact List.map_congr_left fun r _ => applyCrisisRow_date cp r

theorem applyAll_dates (mkt : List MarketRow) (cps : List Candidate) :
    ((applyAll mkt cps).map fun r => r.date) = mkt.map fun m => m.date := by
  rw [applyAll, foldl_apply_dates, initRegimes, List.map_map]
  rfl

/-- C5: regime labeling emits exactly one row per input observation date —
the output's date sequence equals the input's date sequence (hence full
coverage, no gaps, no duplicates beyond those of the input), for every
crisis list including the empty one. -/
theorem assign_regimes_dates_preserved (stdlr : List ℚ → ℚ) (mkt : List MarketRow)
    (cps : List Candidate) :
    ((assign_regimes stdlr mkt cps).map fun r => r.date) = (mkt.map fun m => m.date)
  ∧ (assign_regimes stdlr mkt cps).length = mkt.length := by
  have hdates : ((assign_regimes stdlr mkt cps).map fun r => r.date)
      = (mkt.map fun m => m.date) := by
    rw [assign_regimes]
    split
    · rw [List.map_map, initRegimes, List.map_map]
      rfl
    · dsimp only
      split
      · rw [List.map_map]
        rw [show ((fun r : RegimeRow => r.date) ∘
            fallbackUpdate (stdlr ((baselineDataOf mkt cps).map fun m => m.price)))
          = fun r : RegimeRow => r.date from rfl]
        exact applyAll_dates mkt cps
      · exact applyAll_dates mkt cps
  refine ⟨hdates, ?_⟩
  have hlen := congrArg List.length hdates
  simpa using hlen

/-- C6: for the single crisis {start 2008-09-01 (day 0),
end 2009-03-01 (day 181), vol_pre 0.01, vol_crisis 0.05, vol_post 0.02,
confidence 0.9}, the labeler gives 2008-08-15 (day −17, inside the
half-open pre-crisis range) regime Normal with volatility 0.01,
2009-03-20 (day 200, inside the half-open recovery range) regime Recovery
with volatility 0.02, and 2009-05-01 (day 242, outside all three ranges)
the statistical baseline volatility — `stdlr` applied to the prices of the
Normal-labeled days — with confidence 0.8. -/
theorem regime_labeler_example_days (stdlr : List ℚ → ℚ) :
    ((assign_regimes stdlr exMkt [exCp]).find? fun r => r.date == -17)
      = some ⟨-17, 11, "Normal", 1/100, 9/10⟩
  ∧ ((assign_regimes stdlr exMkt [exCp]).find? fun r => r.date == 200)
      = some ⟨200, 14, "Recovery", 2/100, 9/10⟩
  ∧ ((assign_regimes stdlr exMkt [exCp]).find? fun r => r.date == 242)
      = some ⟨242, 15, "Normal", stdlr [10, 11, 15], 4/5⟩ := by
  norm_num [assign_regimes, applyAll, sortByStart, initRegimes, applyCrisisRow,
    normalDatesOf, baselineDataOf, fallbackUpdate, exMkt, exCp]
  congr 1

/-- C7 counterexample: in the example scenario the code computes the
baseline over the prices of *all* days currently labeled Normal —
including the pre-crisis-margin day −17 — not only over the untouched
ones: with the price-counting instantiation `lenQ` of the abstract
std-of-log-returns, the fallback day 242 receives volatility 3 (three
Normal days) whereas the claim's formula over untouched-Normal days gives
2. -/
theorem baseline_excludes_premargin_cex :
    normalDatesOf exMkt [exCp] = [-100, -17, 242]
  ∧ specUntouchedNormalDates exMkt [exCp] = [-100, 242]
  ∧ (((assign_regimes lenQ exMkt [exCp]).find? fun r => r.date == 242).map
      fun r => r.volatility) = some 3
  ∧ lenQ ((exMkt.filter fun m =>
      (specUntouchedNormalDates exMkt [exCp]).contains m.date).map fun m => m.price) = 2
  ∧ ((3 : ℚ) ≠ 2) := by
  have hCN : (("Crisis" : String) == "Normal") = false := by decide
  have hRN : (("Recovery" : String) == "Normal") = false := by decide
  have hCNe : ¬(("Crisis" : String) = "Normal") := by decide
  have hRNe : ¬(("Recovery" : String) = "Normal") := by decide
  refine ⟨?_, ?_, ?_, ?_, by norm_num⟩
  · norm_num [normalDatesOf, applyAll, sortByStart, initRegimes, applyCrisisRow,
      exMkt, exCp, hCN, hRN]
  · norm_num [specUntouchedNormalDates, applyAll, sortByStart, initRegimes,
      applyCrisisRow, exMkt, exCp, hCN, hRN]
  · norm_num [assign_regimes, applyAll, sortByStart, initRegimes, applyCrisisRow,
      normalDatesOf, baselineDataOf, fallbackUpdate, lenQ, exMkt, exCp,
      hCN, hRN, hCNe, hRNe]
  · norm_num [specUntouchedNormalDates, applyAll, sortByStart, initRegimes,
      applyCrisisRow, lenQ, exMkt, exCp, hCN, hRN]

/-- C7 amended: after all crises are applied, every day still labeled
Normal with default volatility 0 and confidence 0 receives volatility
`stdlr` of the prices of **all** days currently labeled Normal — the
pre-crisis-margin days, though carrying a crisis's `volatility_pre`, are
*included* in the baseline input — together with confidence 0.8, provided
the baseline frame holds more than one row. -/
theorem baseline_includes_all_normal_days (stdlr : List ℚ → ℚ) (mkt : List MarketRow)
    (cps : List Candidate) (r : RegimeRow)
    (hne : cps ≠ [])
    (hr : r ∈ applyAll mkt cps)
    (hN : r.regime = "Normal") (hv : r.volatility = 0) (hc : r.confidence = 0)
    (hguard : 0 < ((applyAll mkt cps).filter fun x => x.regime == "Normal").length ∧
        1 < (baselineDataOf mkt cps).length) :
    fallbackUpdate (stdlr ((baselineDataOf mkt cps).map fun m => m.price)) r
      = { r with volatility := stdlr ((baselineDataOf mkt cps).map fun m => m.price),
                 confidence := 4/5 }
  ∧ fallbackUpdate (stdlr ((baselineDataOf mkt cps).map fun m => m.price)) r
      ∈ assign_regimes stdlr mkt cps := by
  have hupd : fallbackUpdate (stdlr ((baselineDataOf mkt cps).map fun m => m.price)) r
      = { r with volatility := stdlr ((baselineDataOf mkt cps).map fun m => m.price),
                 confidence := 4/5 } := by
    rw [fallbackUpdate, if_pos ⟨hN, hv⟩, if_pos ⟨hN, hc⟩]
  refine ⟨hupd, ?_⟩
  rw [assign_regimes, if_neg (by simp [hne])]
  dsimp only
  rw [if_pos hguard]
  exact List.mem_map_of_mem _ hr

theorem baseline_includes_all_normal_days_witness :
    fallbackUpdate (lenQ ((baselineDataOf exMkt [exCp]).map fun m => m.price))
      ⟨242, 15, "Normal", 0, 0⟩
      = ⟨242, 15, "Normal", lenQ ((baselineDataOf exMkt [exCp]).map fun m => m.price), 4/5⟩
  ∧ fallbackUpdate (lenQ ((baselineDataOf exMkt [exCp]).map fun m => m.price))
      ⟨242, 15, "Normal", 0, 0⟩ ∈ assign_regimes lenQ exMkt [exCp] :=
  baseline_includes_all_normal_days lenQ exMkt [exCp] ⟨242, 15, "Normal", 0, 0⟩
    (by simp)
    (by norm_num [applyAll, sortByStart, initRegimes, applyCrisisRow, exMkt, exCp])
    rfl rfl rfl
    (by norm_num [applyAll, sortByStart, initRegimes, applyCrisisRow, baselineDataOf,
      normalDatesOf, exMkt, exCp])

theorem matches_missed_partition (detected : List Candidate)
    (events : List GroundTruthEvent) :
    (events.filterMap fun ev =>
        (findMatch detected ev.event_date).map fun cp => (ev, cp)).length
      + (events.filter fun ev => (findMatch detected ev.event_date).isNone).length
      = events.length := by
  induction events with
  | nil => rfl
  | cons ev evs ih =>
      rw [List.filterMap_cons, List.filter_cons]
      cases h : findMatch detected ev.event_date with
      | none =>
          simp only [h, Option.map_none', Option.isNone_none, if_pos]
          simp only [List.length_cons]
          omega
      | some cp =>
          simp only [h, Option.map_some', Option.isNone_some, Bool.false_eq_true,
            if_false, List.length_cons]
          omega

/-- C8 amended: with non-empty detections and a non-empty event list,
validation returns the metrics record in which an event is matched iff its
date falls in some crisis's `[start, end]` range or within 60 days of some
crisis's start (the first such crisis winning), matched and missed counts
partition the events, a crisis is a false positive iff no event is within
60 days of its start, and the two rates are the ratios times 100 (their
denominators are positive here; with no detections or no events the
function instead short-circuits to a status outcome, so the zero-denominator
guards of the rate expressions are unreachable).  An event exactly 45 days
before a crisis's start is matched by it; one 90 days before is not. -/
theorem validate_metrics_characterization (detected : List Candidate)
    (events : List GroundTruthEvent) (hd : detected ≠ []) (he : events ≠ []) :
    validate_detections detected events
      = ValidationOutcome.results (validationMetricsOf detected events)
  ∧ (validationMetricsOf detected events).total_known_events = events.length
  ∧ (∀ ev ∈ events, (findMatch detected ev.event_date).isSome ↔
      ∃ cp ∈ detected,
        (cp.crisis_start_date ≤ ev.event_date ∧ ev.event_date ≤ cp.crisis_end_date)
        ∨ (ev.event_date - cp.crisis_start_date).natAbs ≤ 60)
  ∧ (validationMetricsOf detected events).detected_events
      + (validationMetricsOf detected events).missed_events = events.length
  ∧ (∀ cp ∈ detected, isFalsePositive events cp = true ↔
      ¬∃ ev ∈ events, (cp.crisis_start_date - ev.event_date).natAbs ≤ 60)
  ∧ (validationMetricsOf detected events).detection_rate
      = ((validationMetricsOf detected events).detected_events : ℚ) / events.length * 100
  ∧ (validationMetricsOf detected events).false_positive_rate
      = ((validationMetricsOf detected events).false_positives : ℚ) / detected.length * 100
  ∧ (∀ cp : Candidate, findMatch [cp] (cp.crisis_start_date - 45) = some cp)
  ∧ (∀ cp : Candidate, findMatch [cp] (cp.crisis_start_date - 90) = none) := by
  have hlen : 0 < events.length := List.length_pos.mpr he
  have hdlen : 0 < detected.length := List.length_pos.mpr hd
  refine ⟨?_, rfl, ?_, ?_, ?_, ?_, ?_, ?_, ?_⟩
  · rw [validate_detections, if_neg (by simp [hd]), if_neg (by simp [he])]
  · intro ev hev
    rw [findMatch, List.find?_isSome]
    constructor
    · rintro ⟨cp, hcp, hp⟩
      refine ⟨cp, hcp, ?_⟩
      simpa using hp
    · rintro ⟨cp, hcp, hp⟩
      refine ⟨cp, hcp, ?_⟩
      simpa using hp
  · exact matches_missed_partition detected events
  · intro cp hcp
    rw [isFalsePositive, List.all_eq_true]
    constructor
    · intro h hex
      obtain ⟨ev, hev, hd60⟩ := hex
      have := h ev hev
      simp only [decide_eq_true_eq] at this
      omega
    · intro h ev hev
      simp only [decide_eq_true_eq]
      by_contra hnot
      exact h ⟨ev, hev, by omega⟩
  · rw [validationMetricsOf]
    dsimp only
    rw [if_pos hlen]
  · rw [validationMetricsOf]
    dsimp only
    rw [if_pos hdlen]
  · intro cp
    rw [findMatch, List.find?_cons_of_pos _ (by simp)]
  · intro cp
    rw [findMatch]
    rw [List.find?_cons_of_neg _ (by simp)]
    rfl

/-- C8 counterexample: with no detections (and a non-empty event list),
validation returns the early status outcome `no_detections`, which is not
a metrics outcome at all — in particular not one carrying rate 0 — so "a
zero denominator yields rate 0" does not describe the code. -/
theorem validate_empty_detections_cex :
    validate_detections [] [evW] = ValidationOutcome.no_detections
  ∧ ValidationOutcome.no_detections
      ≠ ValidationOutcome.results (validationMetricsOf [] [evW]) := by
  constructor
  · rfl
  · intro h
    cases h

theorem validate_metrics_witness :
    validate_detections [cpW] [evW]
      = ValidationOutcome.results (validationMetricsOf [cpW] [evW])
  ∧ (validationMetricsOf [cpW] [evW]).detected_events
      + (validationMetricsOf [cpW] [evW]).missed_events = 1 :=
  ⟨(validate_metrics_characterization [cpW] [evW] (by simp) (by simp)).1,
    (validate_metrics_characterization [cpW] [evW] (by simp) (by simp)).2.2.2.1⟩
